import Mathlib

/-!  Verification of the cellpose-based 2D segmentation pipeline in
`bin/segmenter.py`: contrast normalization (`claher`), border trim
(`trim`), per-label small-object removal, sequential relabelling, ROI
export, and the command-line driver (`runMain`).  External collaborators
(skimage's `equalize_adapthist`, the cellpose model, `cv2.findContours`,
Python's `float` parsing) are abstracted as function parameters; the
rest is translated from the source.  Machine floats are modelled with
rationals; the `uint8` cast is modelled by floor followed by `% 256`. -/

set_option linter.unusedSectionVars false
set_option linter.unusedVariables false

namespace Segmenter

/-- A label mask: a 2D array of natural-number labels, 0 = background.
Mirrors the numpy integer arrays used throughout `segmenter.py`. -/
abbrev Mask (h w : Nat) := Fin h → Fin w → Nat

/-- A real-valued image, intensities modelled as rationals. -/
abbrev Image (h w : Nat) := Fin h → Fin w → ℚ

/-- `trim` from `segmenter.py`: sets to 0 all pixels at the edges
(first/last column, first/last row).  The source mutates in place; this
is the resulting array. -/
def trim (image : Mask h w) : Mask h w := fun i j =>
  if j.val = 0 then 0
  else if j.val = w - 1 then 0
  else if i.val = 0 then 0
  else if i.val = h - 1 then 0
  else image i j

/-- `np.amax(mask, axis = None)`: the largest pixel value. -/
def maskMax (m : Mask h w) : Nat :=
  Finset.univ.sup fun p : Fin h × Fin w => m p.1 p.2

/-- The pixel set of the boolean array `mask == cell_id`. -/
def labelSet (m : Mask h w) (k : Nat) : Finset (Fin h × Fin w) :=
  Finset.univ.filter fun p => m p.1 p.2 = k

/-- Distance between two naturals (used to state pixel adjacency). -/
def natDist (a b : Nat) : Nat := max a b - min a b

/-- 4-connectivity on the pixel grid: the neighbourhood used by
`skimage.morphology.remove_small_objects` at its default
`connectivity = 1` (the call in `segmenter.py` passes no connectivity). -/
def adj4 (p q : Fin h × Fin w) : Bool :=
  natDist p.1.val q.1.val + natDist p.2.val q.2.val == 1

/-- 8-connectivity on the pixel grid (skimage `connectivity = 2`). -/
def adj8 (p q : Fin h × Fin w) : Bool :=
  max (natDist p.1.val q.1.val) (natDist p.2.val q.2.val) == 1

section Closure

variable {α : Type*} [DecidableEq α] [Fintype α]

/-- One step of connected-component growth: add to `T` every point of
`S` adjacent to a point of `T`. -/
def growStep (A : α → α → Bool) (S T : Finset α) : Finset α :=
  T ∪ S.filter fun q => ∃ r ∈ T, A r q

/-- The connected component of `p` inside the point set `S`, computed
by saturating `growStep` (at most `Fintype.card α` rounds are needed). -/
def comp (A : α → α → Bool) (S : Finset α) (p : α) : Finset α :=
  (growStep A S)^[Fintype.card α] {p}

/-- `skimage.morphology.remove_small_objects` on a boolean mask `S`:
pixels whose connected component has size `< min_size` are erased;
a pixel survives iff its component size is not below the threshold. -/
def remove_small_objects (A : α → α → Bool) (min_size : ℚ) (S : Finset α) :
    Finset α :=
  S.filter fun p => ¬ (((comp A S p).card : ℚ) < min_size)

/-- Reachability by adjacency steps staying inside the point set `S`:
the connectivity relation underlying `comp`. -/
def reaches (A : α → α → Bool) (S : Finset α) : α → α → Prop :=
  Relation.ReflTransGen fun a b => a ∈ S ∧ b ∈ S ∧ A a b

end Closure

/-- One iteration of the cleaning loop
`canvas[np.where(remove_small_objects(mask == cell_id, diameter / 2) != 0)] = cell_id`. -/
def writeBack (A : (Fin h × Fin w) → (Fin h × Fin w) → Bool) (thr : ℚ)
    (t : Mask h w) (c : Mask h w) (k : Nat) : Mask h w := fun i j =>
  if (i, j) ∈ remove_small_objects A thr (labelSet t k) then k else c i j

/-- The accumulation canvas after the loop
`for cell_id in range(1, cell_number)` over the trimmed mask `t`,
starting from `np.zeros_like(mask)`. -/
def canvasWith (A : (Fin h × Fin w) → (Fin h × Fin w) → Bool) (thr : ℚ)
    (t : Mask h w) : Mask h w :=
  (List.range' 1 (maskMax t)).foldl (writeBack A thr t) fun _ _ => 0

/-- The distinct nonzero values of a mask. -/
def labelValues (m : Mask h w) : Finset Nat :=
  (Finset.univ.image fun p : Fin h × Fin w => m p.1 p.2).erase 0

/-- The new value `skimage.segmentation.relabel_sequential` (offset 1)
gives to an old nonzero value `v`: sorted unique nonzero labels are
mapped to `1, 2, ...`, so `v` goes to the number of distinct nonzero
labels `≤ v`. -/
def rank (V : Finset Nat) (v : Nat) : Nat := (V.filter (· ≤ v)).card

/-- `skimage.segmentation.relabel_sequential(canvas, offset = 1)`:
0 stays 0, the sorted distinct nonzero values become `1..N`. -/
def relabel_sequential (m : Mask h w) : Mask h w := fun i j =>
  if m i j = 0 then 0 else rank (labelValues m) (m i j)

/-- The mask-cleaning pipeline of `segmenter.py` (`trim`, small-object
removal with threshold `diameter / 2`, sequential relabel), generic in
the pixel adjacency used by the removal step. -/
def cleanedWith (A : (Fin h × Fin w) → (Fin h × Fin w) → Bool) (diameter : ℚ)
    (M : Mask h w) : Mask h w :=
  relabel_sequential (canvasWith A (diameter / 2) (trim M))

/-- The cleaned mask as computed by the code: the call
`morphology.remove_small_objects(mask == cell_id, diameter / 2)` leaves
`connectivity` at its default value 1, i.e. 4-connectivity in 2D. -/
def cleanedMask (diameter : ℚ) (M : Mask h w) : Mask h w :=
  cleanedWith adj4 diameter M

/-- The cleaning pipeline as the spec words it ("using 8-connectivity or
equivalent"): identical except that small-object removal uses
8-connectivity.  Stated only to be compared with `cleanedMask`. -/
def cleanedMaskSpec8 (diameter : ℚ) (M : Mask h w) : Mask h w :=
  cleanedWith adj8 diameter M

/-- `img.max()`: the largest intensity of the equalized image (numpy
array max; equalized images are nonnegative, so folding from 0 agrees
with the array maximum). -/
def imgMax (e : Image h w) : ℚ :=
  Finset.univ.fold max 0 fun p : Fin h × Fin w => e p.1 p.2

/-- `claher` from `segmenter.py`.  The call
`exposure.equalize_adapthist(img, kernel_size = 127, clip_limit = 0.01,
nbins = 256)` is an external skimage collaborator, abstracted as the
function argument `equalize_adapthist` and applied at exactly the
parameters the source passes.  The rescale `img / img.max()`,
`255 * img`, `img.astype(np.uint8)` is translated to rational
arithmetic; the `uint8` cast truncates, then wraps (`% 256`). -/
def claher (equalize_adapthist : Nat → ℚ → Nat → Image h w → Image h w)
    (img : Image h w) : Mask h w :=
  let e := equalize_adapthist 127 (1 / 100) 256 img
  fun i j => (Int.toNat ⌊255 * (e i j / imgMax e)⌋) % 256

/-- The ROI loop over the labels in `cell_ids`.
`cv2.findContours(..., cv2.RETR_EXTERNAL, cv2.CHAIN_APPROX_SIMPLE)` is
abstracted as `findContours` (the returned list of external contours);
the source's `np.concatenate(cell[0][0]).tolist()` keeps the first
contour only, and raises an index error (modelled by `none`) when the
contour list is empty. -/
def collectCells (findContours : Finset (Fin h × Fin w) → List (List (Nat × Nat)))
    (m : Mask h w) : List Nat → Option (List (List (Nat × Nat)))
  | [] => some []
  | k :: ks =>
    match (findContours (labelSet m k)).head? with
    | none => none
    | some c => (collectCells findContours m ks).map (c :: ·)

/-- ROI identification and export: one entry per
`cell_id in range(1, np.amax(mask) + 1)`, each archive entry named by
its zero-based position rendered as a string
(`roi_ids = list(map(str, range(0, len(rois))))`). -/
def roiExport (findContours : Finset (Fin h × Fin w) → List (List (Nat × Nat)))
    (m : Mask h w) : Option (List (String × List (Nat × Nat))) :=
  (collectCells findContours m (List.range' 1 (maskMax m))).map fun cells =>
    ((List.range cells.length).map toString).zip cells

/-- The two persisted outputs of one invocation: the cleaned mask
(`io.imsave`) and, when the optional zip path was supplied, the ROI
archive entries (`roiwrite`). -/
structure RunResult (h w : Nat) where
  maskOut : Mask h w
  roiOut : Option (List (String × List (Nat × Nat)))

/-- The `__main__` block of `segmenter.py`.  External collaborators are
parameters: `pyfloat` is Python's `float()` (`none` models the
`ValueError` branch that sets `cell_diameter = None`), `modelOf name`
is `models.Cellpose(gpu = False, model_type = name).eval`, returning
the raw mask and the estimated-or-echoed diameter (flows and style are
returned too but never used), `findContours` is cv2 contour extraction
and `equalize_adapthist` skimage's CLAHE.  An overall `none` models the
`cell[0][0]` index error on a missing contour.  `prob_thresh` is
accepted but never used, exactly as in the source. -/
def runMain (pyfloat : String → Option ℚ)
    (modelOf : String → Mask h w → Option ℚ → List Nat → Mask h w × ℚ)
    (findContours : Finset (Fin h × Fin w) → List (List (Nat × Nat)))
    (equalize_adapthist : Nat → ℚ → Nat → Image h w → Image h w)
    (img0 : Image h w) (model_name prob_thresh cell_diameter : String)
    (output_zip : Option String) : Option (RunResult h w) :=
  let diam0 := pyfloat cell_diameter
  let channels := [0, 0]
  let img := claher equalize_adapthist img0
  let r := modelOf model_name img diam0 channels
  let mask := cleanedMask r.2 r.1
  match output_zip with
  | none => some ⟨mask, none⟩
  | some _ => (roiExport findContours mask).map fun entries => ⟨mask, some entries⟩

/-- 3×3 test mask: a single labelled pixel at the centre. -/
def M1 : Mask 3 3 := fun i j => if i.val = 1 ∧ j.val = 1 then 1 else 0

/-- 4×4 test mask: label 1 on the diagonal pair (1,1), (2,2) — one
8-connected component, two 4-connected singleton components. -/
def M2 : Mask 4 4 := fun i j =>
  if (i.val = 1 ∧ j.val = 1) ∨ (i.val = 2 ∧ j.val = 2) then 1 else 0

/-- Trivial concrete collaborators used to instantiate the driver
theorems on a 1×1 invocation. -/
def pyfloatFail : String → Option ℚ := fun _ => none

def modelTiny : String → Mask 1 1 → Option ℚ → List Nat → Mask 1 1 × ℚ :=
  fun _ _ _ _ => (fun _ _ => 0, 2)

def contoursTiny : Finset (Fin 1 × Fin 1) → List (List (Nat × Nat)) := fun _ => []

def eqadTiny : Nat → ℚ → Nat → Image 1 1 → Image 1 1 := fun _ _ _ img => img

def imgTiny : Image 1 1 := fun _ _ => 0

/-- A constant adaptive-equalization stand-in whose output is the
all-ones 1×1 image (a non-degenerate equalized image). -/
def eqadOne : Nat → ℚ → Nat → Image 1 1 → Image 1 1 := fun _ _ _ _ _ _ => 1

section ClosureLemmas

variable {α : Type*} [DecidableEq α] [Fintype α] {A : α → α → Bool}
variable {S T P : Finset α} {p q : α}

theorem subset_growStep (A : α → α → Bool) (S T : Finset α) : T ⊆ growStep A S T :=
  Finset.subset_union_left

theorem iterate_fixed (hT : growStep A S T = T) :
    ∀ n, (growStep A S)^[n] T = T := by
  intro n
  induction n with
  | zero => rfl
  | succ n ih => rw [Function.iterate_succ_apply', ih, hT]

theorem card_iterate_of_ne :
    ∀ n, (∀ m < n, (growStep A S)^[m + 1] T ≠ (growStep A S)^[m] T) →
      T.card + n ≤ ((growStep A S)^[n] T).card := by
  intro n
  induction n with
  | zero => simp
  | succ n ih =>
    intro hne
    have h1 : T.card + n ≤ ((growStep A S)^[n] T).card :=
      ih fun m hm => hne m (hm.trans (Nat.lt_succ_self n))
    have h2 : (growStep A S)^[n] T ⊂ (growStep A S)^[n + 1] T := by
      refine HasSubset.Subset.ssubset_of_ne ?_ (Ne.symm (hne n (Nat.lt_succ_self n)))
      rw [Function.iterate_succ_apply']
      exact subset_growStep _ _ _
    have h3 := Finset.card_lt_card h2
    omega

theorem growStep_comp_fixed (A : α → α → Bool) (S : Finset α) (p : α) :
    growStep A S (comp A S p) = comp A S p := by
  by_cases hstab : ∃ m < Fintype.card α,
      (growStep A S)^[m + 1] ({p} : Finset α) = (growStep A S)^[m] ({p} : Finset α)
  · obtain ⟨m, _, heq⟩ := hstab
    have hfix : growStep A S ((growStep A S)^[m] {p}) = (growStep A S)^[m] {p} := by
      rw [← Function.iterate_succ_apply' (growStep A S) m {p}]
      exact heq
    have hcomp : comp A S p = (growStep A S)^[m] ({p} : Finset α) := by
      unfold comp
      rw [show Fintype.card α = (Fintype.card α - m) + m by omega,
        Function.iterate_add_apply, iterate_fixed hfix]
    rw [hcomp, hfix]
  · exfalso
    push_neg at hstab
    have h := card_iterate_of_ne (A := A) (S := S) (T := {p}) (Fintype.card α) hstab
    have hle : ((growStep A S)^[Fintype.card α] ({p} : Finset α)).card ≤ Fintype.card α :=
      Finset.card_le_univ _
    simp only [Finset.card_singleton] at h
    omega

theorem iterate_sound (hp : p ∈ S) :
    ∀ n q, q ∈ (growStep A S)^[n] ({p} : Finset α) → q ∈ S ∧ reaches A S p q := by
  intro n
  induction n with
  | zero =>
    intro q hq
    rw [Function.iterate_zero_apply, Finset.mem_singleton] at hq
    subst hq
    exact ⟨hp, .refl⟩
  | succ n ih =>
    intro q hq
    rw [Function.iterate_succ_apply'] at hq
    simp only [growStep, Finset.mem_union, Finset.mem_filter] at hq
    rcases hq with hq | ⟨hqS, r, hr, hA⟩
    · exact ih q hq
    · obtain ⟨hrS, hreach⟩ := ih r hr
      exact ⟨hqS, hreach.tail ⟨hrS, hqS, hA⟩⟩

theorem comp_sound (hp : p ∈ S) (hq : q ∈ comp A S p) : q ∈ S ∧ reaches A S p q :=
  iterate_sound hp _ q hq

theorem mem_iterate_self : ∀ n, p ∈ (growStep A S)^[n] ({p} : Finset α) := by
  intro n
  induction n with
  | zero => simp
  | succ n ih =>
    rw [Function.iterate_succ_apply']
    exact subset_growStep _ _ _ ih

theorem mem_comp_self : p ∈ comp A S p := mem_iterate_self _

theorem comp_complete (hq : reaches A S p q) : q ∈ comp A S p := by
  induction hq with
  | refl => exact mem_comp_self
  | tail _ hbc ih =>
    rw [← growStep_comp_fixed A S p]
    simp only [growStep, Finset.mem_union, Finset.mem_filter]
    exact Or.inr ⟨hbc.2.1, _, ih, hbc.2.2⟩

theorem mem_comp_iff (hp : p ∈ S) : q ∈ comp A S p ↔ q ∈ S ∧ reaches A S p q :=
  ⟨comp_sound hp, fun hq => comp_complete hq.2⟩

theorem reaches_symm (hA : ∀ a b, A a b = A b a) (h : reaches A S p q) :
    reaches A S q p := by
  induction h with
  | refl => exact .refl
  | tail _ hbc ih =>
    exact Relation.ReflTransGen.head ⟨hbc.2.1, hbc.1, by rw [hA]; exact hbc.2.2⟩ ih

theorem reaches_mem_right (hp : p ∈ S) (h : reaches A S p q) : q ∈ S := by
  induction h with
  | refl => exact hp
  | tail _ hbc _ => exact hbc.2.1

theorem reaches_mono (hPS : P ⊆ S) (h : reaches A P p q) : reaches A S p q := by
  refine Relation.ReflTransGen.mono ?_ h
  intro a b hab
  exact ⟨hPS hab.1, hPS hab.2.1, hab.2.2⟩

theorem reaches_confine (hcl : ∀ r, reaches A S p r → r ∈ P) (h : reaches A S p q) :
    reaches A P p q := by
  induction h with
  | refl => exact .refl
  | tail hab hbc ih =>
    exact ih.tail ⟨hcl _ hab, hcl _ (hab.tail hbc), hbc.2.2⟩

theorem comp_eq_of_mem (hA : ∀ a b, A a b = A b a) (hp : p ∈ S)
    (hq : q ∈ comp A S p) : comp A S q = comp A S p := by
  obtain ⟨hqS, hpq⟩ := comp_sound hp hq
  ext r
  rw [mem_comp_iff hqS, mem_comp_iff hp]
  constructor
  · rintro ⟨hrS, hqr⟩
    exact ⟨hrS, hpq.trans hqr⟩
  · rintro ⟨hrS, hpr⟩
    exact ⟨hrS, (reaches_symm hA hpq).trans hpr⟩

theorem comp_confine (hp : p ∈ S) (hPS : P ⊆ S)
    (hsub : comp A S p ⊆ P) : comp A P p = comp A S p := by
  have hpP : p ∈ P := hsub mem_comp_self
  ext r
  rw [mem_comp_iff hpP, mem_comp_iff hp]
  constructor
  · rintro ⟨hrP, hr⟩
    exact ⟨hPS hrP, reaches_mono hPS hr⟩
  · rintro ⟨hrS, hr⟩
    have hrP : r ∈ P := hsub ((mem_comp_iff hp).2 ⟨hrS, hr⟩)
    refine ⟨hrP, reaches_confine ?_ hr⟩
    intro x hx
    exact hsub ((mem_comp_iff hp).2 ⟨reaches_mem_right hp hx, hx⟩)

theorem remove_small_objects_subset (A : α → α → Bool) (c : ℚ) (S : Finset α) :
    remove_small_objects A c S ⊆ S := Finset.filter_subset _ _

theorem comp_subset_remove_small (hA : ∀ a b, A a b = A b a)
    {c : ℚ} (hp : p ∈ remove_small_objects A c S) :
    comp A S p ⊆ remove_small_objects A c S := by
  intro q hq
  have hpS : p ∈ S := remove_small_objects_subset A c S hp
  have hqS : q ∈ S := (comp_sound hpS hq).1
  rw [remove_small_objects, Finset.mem_filter] at hp ⊢
  refine ⟨hqS, ?_⟩
  rw [comp_eq_of_mem hA hpS hq]
  exact hp.2

/-- Surviving pixels keep a large component even when the component is
recomputed inside the surviving set: removal only deletes whole
components, so the surviving components are intact. -/
theorem remove_small_comp_card (hA : ∀ a b, A a b = A b a)
    {c : ℚ} (hp : p ∈ remove_small_objects A c S) :
    c ≤ ((comp A (remove_small_objects A c S) p).card : ℚ) := by
  have hpS : p ∈ S := remove_small_objects_subset A c S hp
  rw [comp_confine hpS (remove_small_objects_subset A c S)
    (comp_subset_remove_small hA hp)]
  exact not_lt.mp (Finset.mem_filter.mp hp).2

end ClosureLemmas

theorem le_maskMax (m : Mask h w) (i : Fin h) (j : Fin w) : m i j ≤ maskMax m :=
  Finset.le_sup (f := fun p : Fin h × Fin w => m p.1 p.2) (Finset.mem_univ (i, j))

theorem mem_labelValues {m : Mask h w} {v : Nat} :
    v ∈ labelValues m ↔ v ≠ 0 ∧ ∃ i j, m i j = v := by
  simp only [labelValues, Finset.mem_erase, Finset.mem_image, Finset.mem_univ,
    true_and, Prod.exists]

theorem rank_pos {V : Finset Nat} {v : Nat} (hv : v ∈ V) : 1 ≤ rank V v := by
  unfold rank
  exact Finset.card_pos.mpr ⟨v, Finset.mem_filter.mpr ⟨hv, le_refl v⟩⟩

theorem rank_le_card (V : Finset Nat) (v : Nat) : rank V v ≤ V.card :=
  Finset.card_le_card (Finset.filter_subset _ _)

theorem rank_lt_rank {V : Finset Nat} {u v : Nat} (hv : v ∈ V) (huv : u < v) :
    rank V u < rank V v := by
  apply Finset.card_lt_card
  have hsub : V.filter (· ≤ u) ⊆ V.filter (· ≤ v) := by
    intro x hx
    rw [Finset.mem_filter] at hx ⊢
    exact ⟨hx.1, hx.2.trans huv.le⟩
  rw [Finset.ssubset_iff_of_subset hsub]
  refine ⟨v, Finset.mem_filter.mpr ⟨hv, le_refl v⟩, fun hmem => ?_⟩
  exact absurd (Finset.mem_filter.mp hmem).2 (not_le.mpr huv)

theorem rank_injOn {V : Finset Nat} {u v : Nat} (hu : u ∈ V) (hv : v ∈ V)
    (h : rank V u = rank V v) : u = v := by
  rcases lt_trichotomy u v with hlt | heq | hgt
  · exact absurd h (Nat.ne_of_lt (rank_lt_rank hv hlt))
  · exact heq
  · exact absurd h.symm (Nat.ne_of_lt (rank_lt_rank hu hgt))

/-- The sequential relabelling map sends the distinct nonzero labels
onto `{1, ..., N}` with no gaps. -/
theorem image_rank (V : Finset Nat) : V.image (rank V) = Finset.Icc 1 V.card := by
  apply Finset.eq_of_subset_of_card_le
  · intro x hx
    rw [Finset.mem_image] at hx
    obtain ⟨v, hv, rfl⟩ := hx
    rw [Finset.mem_Icc]
    exact ⟨rank_pos hv, rank_le_card V v⟩
  · rw [Nat.card_Icc, Finset.card_image_of_injOn fun u hu v hv h => rank_injOn hu hv h]
    omega

theorem relabel_zero_iff (m : Mask h w) (i : Fin h) (j : Fin w) :
    relabel_sequential m i j = 0 ↔ m i j = 0 := by
  by_cases hm : m i j = 0
  · simp [relabel_sequential, hm]
  · have hmem : m i j ∈ labelValues m := mem_labelValues.mpr ⟨hm, i, j, rfl⟩
    have h1 := rank_pos hmem
    simp only [relabel_sequential, if_neg hm]
    constructor
    · intro hc
      omega
    · intro hc
      exact absurd hc hm

theorem relabel_inj {m : Mask h w} {i i' : Fin h} {j j' : Fin w}
    (h0 : m i j ≠ 0) (h : relabel_sequential m i j = relabel_sequential m i' j') :
    m i j = m i' j' := by
  have hz : relabel_sequential m i j ≠ 0 :=
    fun hc => h0 ((relabel_zero_iff m i j).mp hc)
  have h0' : m i' j' ≠ 0 := by
    intro hc
    exact hz (h.trans ((relabel_zero_iff m i' j').mpr hc))
  have hmem : m i j ∈ labelValues m := mem_labelValues.mpr ⟨h0, i, j, rfl⟩
  have hmem' : m i' j' ∈ labelValues m := mem_labelValues.mpr ⟨h0', i', j', rfl⟩
  apply rank_injOn hmem hmem'
  simpa [relabel_sequential, h0, h0'] using h

theorem maskMax_relabel (m : Mask h w) :
    maskMax (relabel_sequential m) = (labelValues m).card := by
  apply le_antisymm
  · apply Finset.sup_le
    intro p _
    by_cases hm : m p.1 p.2 = 0
    · simp [relabel_sequential, hm]
    · simp only [relabel_sequential, hm, if_false]
      exact rank_le_card _ _
  · rcases Nat.eq_zero_or_pos (labelValues m).card with hN | hN
    · simp [hN]
    · have hmem : (labelValues m).card ∈
          (labelValues m).image (rank (labelValues m)) := by
        rw [image_rank, Finset.mem_Icc]
        omega
      rw [Finset.mem_image] at hmem
      obtain ⟨v, hv, hrank⟩ := hmem
      obtain ⟨hv0, i, j, hij⟩ := mem_labelValues.mp hv
      have hval : relabel_sequential m i j = (labelValues m).card := by
        simp only [relabel_sequential]
        rw [hij, if_neg hv0, hrank]
      have := le_maskMax (relabel_sequential m) i j
      omega

theorem labelValues_relabel (m : Mask h w) :
    labelValues (relabel_sequential m) = Finset.Icc 1 (labelValues m).card := by
  rw [← image_rank]
  ext x
  rw [mem_labelValues, Finset.mem_image]
  constructor
  · rintro ⟨hx0, i, j, hij⟩
    have h0 : m i j ≠ 0 := by
      intro hc
      exact hx0 (hij ▸ (relabel_zero_iff m i j).mpr hc)
    refine ⟨m i j, mem_labelValues.mpr ⟨h0, i, j, rfl⟩, ?_⟩
    rw [← hij]
    simp [relabel_sequential, h0]
  · rintro ⟨v, hv, hrank⟩
    obtain ⟨hv0, i, j, hij⟩ := mem_labelValues.mp hv
    have hval : relabel_sequential m i j = x := by
      simp only [relabel_sequential]
      rw [hij, if_neg hv0, hrank]
    have hx0 : x ≠ 0 := by
      have := rank_pos hv
      omega
    exact ⟨hx0, i, j, hval⟩

theorem mem_remove_small_label {t : Mask h w} {k : Nat} {thr : ℚ}
    {A : (Fin h × Fin w) → (Fin h × Fin w) → Bool} {p : Fin h × Fin w}
    (hp : p ∈ remove_small_objects A thr (labelSet t k)) : t p.1 p.2 = k := by
  have h := remove_small_objects_subset A thr (labelSet t k) hp
  simpa [labelSet] using h

theorem foldl_writeBack (A : (Fin h × Fin w) → (Fin h × Fin w) → Bool)
    (thr : ℚ) (t : Mask h w) :
    ∀ (L : List Nat) (c : Mask h w) (i : Fin h) (j : Fin w),
      (L.foldl (writeBack A thr t) c) i j =
        if t i j ∈ L ∧ (i, j) ∈ remove_small_objects A thr (labelSet t (t i j))
        then t i j else c i j := by
  intro L
  induction L with
  | nil =>
    intro c i j
    simp
  | cons k L ih =>
    intro c i j
    rw [List.foldl_cons, ih]
    rcases Decidable.em
        ((i, j) ∈ remove_small_objects A thr (labelSet t (t i j))) with hs | hs
    · rcases Decidable.em (t i j ∈ L) with hmem | hmem
      · rw [if_pos ⟨hmem, hs⟩, if_pos ⟨List.mem_cons_of_mem k hmem, hs⟩]
      · rw [if_neg fun hc => hmem hc.1]
        rcases Decidable.em (t i j = k) with hk | hk
        · have hcons : t i j ∈ k :: L := by
            rw [hk]
            exact List.mem_cons_self k L
          rw [if_pos ⟨hcons, hs⟩]
          simp only [writeBack]
          have hsk : (i, j) ∈ remove_small_objects A thr (labelSet t k) := by
            rw [← hk]
            exact hs
          rw [if_pos hsk, hk]
        · have hncons : ¬ (t i j ∈ k :: L ∧
              (i, j) ∈ remove_small_objects A thr (labelSet t (t i j))) := by
            rintro ⟨hc, -⟩
            rcases List.mem_cons.mp hc with hc | hc
            · exact hk hc
            · exact hmem hc
          rw [if_neg hncons]
          simp only [writeBack]
          rw [if_neg fun hc => hk (mem_remove_small_label hc)]
    · rw [if_neg fun hc => hs hc.2, if_neg fun hc => hs hc.2]
      simp only [writeBack]
      refine if_neg fun hc => hs ?_
      have hk := mem_remove_small_label hc
      rw [hk]
      exact hc

theorem canvasWith_apply (A : (Fin h × Fin w) → (Fin h × Fin w) → Bool)
    (thr : ℚ) (t : Mask h w) (i : Fin h) (j : Fin w) :
    canvasWith A thr t i j =
      if t i j ≠ 0 ∧ (i, j) ∈ remove_small_objects A thr (labelSet t (t i j))
      then t i j else 0 := by
  unfold canvasWith
  rw [foldl_writeBack]
  have hle := le_maskMax t i j
  have hcond : (t i j ∈ List.range' 1 (maskMax t)) ↔ t i j ≠ 0 := by
    rw [List.mem_range'_1]
    omega
  exact if_congr (and_congr_left' hcond) rfl rfl

theorem canvasWith_zero_iff (A : (Fin h × Fin w) → (Fin h × Fin w) → Bool)
    (thr : ℚ) (t : Mask h w) (i : Fin h) (j : Fin w) :
    canvasWith A thr t i j = 0 ↔
      ¬ (t i j ≠ 0 ∧ (i, j) ∈ remove_small_objects A thr (labelSet t (t i j))) := by
  rw [canvasWith_apply]
  split_ifs with hc
  · simp [hc.1, hc.2]
  · simp [hc]

/-- The accumulation canvas holds, at label `k ≥ 1`, exactly the pixels
of `mask == k` that survive small-object removal. -/
theorem labelSet_canvasWith (A : (Fin h × Fin w) → (Fin h × Fin w) → Bool)
    (thr : ℚ) (t : Mask h w) {k : Nat} (hk : k ≠ 0) :
    labelSet (canvasWith A thr t) k = remove_small_objects A thr (labelSet t k) := by
  ext p
  obtain ⟨i, j⟩ := p
  simp only [labelSet, Finset.mem_filter, Finset.mem_univ, true_and]
  rw [canvasWith_apply]
  constructor
  · intro hp
    split_ifs at hp with hc
    · obtain ⟨h0, hsurv⟩ := hc
      rw [hp] at hsurv
      exact hsurv
    · exact absurd hp.symm hk
  · intro hp
    have ht : t i j = k := mem_remove_small_label hp
    have h0 : t i j ≠ 0 := by
      rw [ht]
      exact hk
    have hsurv : (i, j) ∈ remove_small_objects A thr (labelSet t (t i j)) := by
      rw [ht]
      exact hp
    rw [if_pos ⟨h0, hsurv⟩, ht]

/-- After relabelling, the distinct nonzero labels of the cleaned mask
are exactly `{1, ..., maskMax}`. -/
theorem labelValues_cleanedWith (A : (Fin h × Fin w) → (Fin h × Fin w) → Bool)
    (d : ℚ) (M : Mask h w) :
    labelValues (cleanedWith A d M) = Finset.Icc 1 (maskMax (cleanedWith A d M)) := by
  unfold cleanedWith
  rw [labelValues_relabel, maskMax_relabel]

theorem trim_border (M : Mask h w) (i : Fin h) (j : Fin w)
    (hb : i.val = 0 ∨ i.val = h - 1 ∨ j.val = 0 ∨ j.val = w - 1) :
    trim M i j = 0 := by
  unfold trim
  split_ifs with h1 h2 h3 h4
  · rfl
  · rfl
  · rfl
  · rfl
  · rcases hb with hb | hb | hb | hb
    · exact absurd hb h3
    · exact absurd hb h4
    · exact absurd hb h1
    · exact absurd hb h2

theorem cleanedWith_border (A : (Fin h × Fin w) → (Fin h × Fin w) → Bool)
    (d : ℚ) (M : Mask h w) (i : Fin h) (j : Fin w)
    (hb : i.val = 0 ∨ i.val = h - 1 ∨ j.val = 0 ∨ j.val = w - 1) :
    cleanedWith A d M i j = 0 := by
  unfold cleanedWith
  rw [relabel_zero_iff, canvasWith_zero_iff]
  rintro ⟨h0, -⟩
  exact h0 (trim_border M i j hb)

/-- Every label class of the cleaned mask is a union of surviving
components, each of size at least `diameter / 2`. -/
theorem cleanedWith_label_comp (A : (Fin h × Fin w) → (Fin h × Fin w) → Bool)
    (hA : ∀ a b, A a b = A b a) (d : ℚ) (M : Mask h w)
    (i : Fin h) (j : Fin w) (k : Nat) (hk : k ≠ 0)
    (hval : cleanedWith A d M i j = k) :
    d / 2 ≤ ((comp A (labelSet (cleanedWith A d M) k) (i, j)).card : ℚ) := by
  have hCij : canvasWith A (d / 2) (trim M) i j ≠ 0 := by
    intro hc
    apply hk
    rw [← hval]
    exact (relabel_zero_iff _ i j).mpr hc
  have hsets : labelSet (cleanedWith A d M) k
      = labelSet (canvasWith A (d / 2) (trim M))
          (canvasWith A (d / 2) (trim M) i j) := by
    ext p
    obtain ⟨i', j'⟩ := p
    simp only [labelSet, Finset.mem_filter, Finset.mem_univ, true_and]
    constructor
    · intro hv
      have heq : relabel_sequential (canvasWith A (d / 2) (trim M)) i j
          = relabel_sequential (canvasWith A (d / 2) (trim M)) i' j' := by
        show cleanedWith A d M i j = cleanedWith A d M i' j'
        rw [hval, hv]
      exact (relabel_inj hCij heq).symm
    · intro hv
      have heq : cleanedWith A d M i' j' = cleanedWith A d M i j := by
        show relabel_sequential _ i' j' = relabel_sequential _ i j
        simp only [relabel_sequential]
        rw [hv]
      rw [heq, hval]
  rw [hsets, labelSet_canvasWith A (d / 2) (trim M) hCij]
  have hmem : (i, j) ∈ remove_small_objects A (d / 2)
      (labelSet (trim M) (canvasWith A (d / 2) (trim M) i j)) := by
    have hself : (i, j) ∈ labelSet (canvasWith A (d / 2) (trim M))
        (canvasWith A (d / 2) (trim M) i j) := by
      simp [labelSet]
    rwa [labelSet_canvasWith A (d / 2) (trim M) hCij] at hself
  exact remove_small_comp_card hA hmem

theorem natDist_comm (a b : Nat) : natDist a b = natDist b a := by
  unfold natDist
  rw [Nat.max_comm, Nat.min_comm]

theorem adj4_comm (p q : Fin h × Fin w) : adj4 p q = adj4 q p := by
  unfold adj4
  rw [natDist_comm p.1.val q.1.val, natDist_comm p.2.val q.2.val]

theorem adj8_comm (p q : Fin h × Fin w) : adj8 p q = adj8 q p := by
  unfold adj8
  rw [natDist_comm p.1.val q.1.val, natDist_comm p.2.val q.2.val]

theorem collectCells_eq (f : Finset (Fin h × Fin w) → List (List (Nat × Nat)))
    (m : Mask h w) :
    ∀ L : List Nat, (∀ k ∈ L, f (labelSet m k) ≠ []) →
      collectCells f m L = some (L.map fun k => (f (labelSet m k)).headD []) := by
  intro L
  induction L with
  | nil =>
    intro _
    rfl
  | cons k ks ih =>
    intro hL
    have hk : f (labelSet m k) ≠ [] := hL k (List.mem_cons_self k ks)
    have hh : (f (labelSet m k)).head? = some ((f (labelSet m k)).headD []) := by
      cases hcf : f (labelSet m k) with
      | nil => exact absurd hcf hk
      | cons c cs => rfl
    simp only [collectCells, hh]
    rw [ih fun k' hk' => hL k' (List.mem_cons_of_mem k hk')]
    rfl

/-- When every processed label has at least one contour, the export
succeeds and yields, for the i-th entry (0-based), the name `str(i)` and
the first contour of label `1 + i`. -/
theorem roiExport_eq (f : Finset (Fin h × Fin w) → List (List (Nat × Nat)))
    (m : Mask h w)
    (hne : ∀ k, 1 ≤ k → k ≤ maskMax m → f (labelSet m k) ≠ []) :
    roiExport f m = some ((List.range (maskMax m)).map fun i =>
      (toString i, (f (labelSet m (1 + i))).headD [])) := by
  unfold roiExport
  rw [collectCells_eq f m _ ?hcond]
  case hcond =>
    intro k hk
    rw [List.mem_range'_1] at hk
    exact hne k hk.1 (by omega)
  simp only [Option.map_some']
  congr 1
  rw [List.range'_eq_map_range, List.map_map, List.length_map, List.length_range,
    List.zip_map']
  rfl

theorem le_imgMax (e : Image h w) (i : Fin h) (j : Fin w) : e i j ≤ imgMax e := by
  unfold imgMax
  rw [Finset.le_fold_max]
  exact Or.inr ⟨(i, j), Finset.mem_univ _, le_refl _⟩

theorem imgMax_attained (e : Image h w) (hpos : 0 < imgMax e) :
    ∃ i j, e i j = imgMax e := by
  have hself : imgMax e ≤ Finset.univ.fold max 0 fun p : Fin h × Fin w => e p.1 p.2 :=
    le_of_eq rfl
  rw [Finset.le_fold_max] at hself
  rcases hself with hc | ⟨p, -, hp⟩
  · exact absurd (lt_of_lt_of_le hpos hc) (lt_irrefl 0)
  · exact ⟨p.1, p.2, le_antisymm (le_imgMax e p.1 p.2) hp⟩

theorem labelSet_cleanedWith_nonempty (A : (Fin h × Fin w) → (Fin h × Fin w) → Bool)
    (d : ℚ) (M : Mask h w) (k : Nat)
    (h1 : 1 ≤ k) (h2 : k ≤ maskMax (cleanedWith A d M)) :
    (labelSet (cleanedWith A d M) k).Nonempty := by
  have hk : k ∈ labelValues (cleanedWith A d M) := by
    rw [labelValues_cleanedWith, Finset.mem_Icc]
    exact ⟨h1, h2⟩
  obtain ⟨-, i, j, hij⟩ := mem_labelValues.mp hk
  exact ⟨(i, j), by simp [labelSet, hij]⟩

/-- Claim C1: for every cleaned mask produced by the cleaning pipeline
(trim, small-object removal, sequential relabel) the set of distinct
nonzero label values is exactly `{1, ..., max_label}` with no gaps, for
any `max_label ≥ 0`; and a cleaned pixel is background 0 exactly when
the corresponding accumulation-canvas pixel is background. -/
theorem cleanedMask_label_density (d : ℚ) (M : Mask h w) :
    labelValues (cleanedMask d M) = Finset.Icc 1 (maskMax (cleanedMask d M)) ∧
      ∀ i j, (cleanedMask d M i j = 0 ↔ canvasWith adj4 (d / 2) (trim M) i j = 0) := by
  refine ⟨labelValues_cleanedWith adj4 d M, fun i j => ?_⟩
  exact relabel_zero_iff _ i j

/-- Claim C3: every pixel in row 0, row `h - 1`, column 0 and column
`w - 1` of the cleaned mask equals 0: the border trim zeroes the four
outermost edges and the zero border survives small-object removal and
relabelling. -/
theorem cleanedMask_border (d : ℚ) (M : Mask h w) (i : Fin h) (j : Fin w)
    (hb : i.val = 0 ∨ i.val = h - 1 ∨ j.val = 0 ∨ j.val = w - 1) :
    cleanedMask d M i j = 0 :=
  cleanedWith_border adj4 d M i j hb

theorem cleanedMask_border_witness :
    ((0 : Fin 3).val = 0 ∨ (0 : Fin 3).val = 3 - 1 ∨ (1 : Fin 3).val = 0 ∨
      (1 : Fin 3).val = 3 - 1) ∧ cleanedMask 2 M1 0 1 = 0 :=
  ⟨Or.inl rfl, cleanedMask_border 2 M1 0 1 (Or.inl rfl)⟩

/-- Claim C4 (amended): small-object removal uses 4-connectivity — the
default `connectivity = 1` of `skimage.morphology.remove_small_objects`,
which the call in `segmenter.py` does not override — not 8-connectivity;
for each label k it removes exactly the 4-connected components of size
below `diameter / 2`, and consequently in the cleaned mask every
4-connected component of every label has size at least `diameter / 2`. -/
theorem small_object_removal_4conn (d : ℚ) (M : Mask h w) :
    (∀ k : Nat, k ≠ 0 →
      labelSet (canvasWith adj4 (d / 2) (trim M)) k
        = remove_small_objects adj4 (d / 2) (labelSet (trim M) k)) ∧
    ∀ (i : Fin h) (j : Fin w) (k : Nat), k ≠ 0 → cleanedMask d M i j = k →
      d / 2 ≤ ((comp adj4 (labelSet (cleanedMask d M) k) (i, j)).card : ℚ) := by
  constructor
  · intro k hk
    exact labelSet_canvasWith adj4 (d / 2) (trim M) hk
  · intro i j k hk hval
    exact cleanedWith_label_comp adj4 adj4_comm d M i j k hk hval

theorem small_object_removal_4conn_witness :
    cleanedMask 2 M1 1 1 = 1 ∧
      (2 : ℚ) / 2 ≤ ((comp adj4 (labelSet (cleanedMask 2 M1) 1) (1, 1)).card : ℚ) := by
  have hval : cleanedMask 2 M1 1 1 = 1 := by
    simp only [cleanedMask, cleanedWith]
    rw [show (2 : ℚ) / 2 = 1 from by norm_num]
    decide
  exact ⟨hval, (small_object_removal_4conn 2 M1).2 1 1 1 (by decide) hval⟩

/-- Counterexample to claim C4 as stated ("8-connectivity or
equivalent"): on `M2` with diameter 4 the diagonal pair is a single
8-connected component of size 2 = 4/2, so removal under 8-connectivity
keeps it — but the code's removal (4-connectivity) deletes both pixels:
the two cleaning procedures are not equivalent. -/
theorem small_object_removal_8conn_cx :
    cleanedMaskSpec8 4 M2 1 1 = 1 ∧ cleanedMask 4 M2 1 1 = 0 := by
  constructor
  · simp only [cleanedMaskSpec8, cleanedWith]
    rw [show (4 : ℚ) / 2 = 2 from by norm_num]
    decide
  · simp only [cleanedMask, cleanedWith]
    rw [show (4 : ℚ) / 2 = 2 from by norm_num]
    decide

/-- Claim C2: when the ROI path is supplied, export succeeds on a
cleaned mask (every label has pixels, hence a contour), the number of
entries equals the cleaned mask's max label exactly, entries are in
increasing label order (entry i holds the contour of label `1 + i`),
and each entry is tagged with its zero-based position as a string. -/
theorem roiExport_cleanedMask
    (f : Finset (Fin h × Fin w) → List (List (Nat × Nat))) (d : ℚ) (M : Mask h w)
    (hf : ∀ S : Finset (Fin h × Fin w), S.Nonempty → f S ≠ []) :
    ∃ entries, roiExport f (cleanedMask d M) = some entries ∧
      entries.length = maskMax (cleanedMask d M) ∧
      ∀ i : Nat, i < maskMax (cleanedMask d M) →
        entries[i]? = some (toString i,
          (f (labelSet (cleanedMask d M) (1 + i))).headD []) := by
  have hexp := roiExport_eq f (cleanedMask d M) fun k h1 h2 =>
    hf _ (labelSet_cleanedWith_nonempty adj4 d M k h1 h2)
  refine ⟨_, hexp, ?_, ?_⟩
  · rw [List.length_map, List.length_range]
  · intro i hi
    rw [List.getElem?_map, List.getElem?_range hi, Option.map_some']

theorem roiExport_cleanedMask_witness :
    ∃ entries,
      roiExport (fun _ => [[(1, 1)]]) (cleanedMask 2 M1) = some entries ∧
      entries.length = maskMax (cleanedMask 2 M1) ∧
      ∀ i : Nat, i < maskMax (cleanedMask 2 M1) →
        entries[i]? = some (toString i,
          ((fun _ => [[(1, 1)]]) (labelSet (cleanedMask 2 M1) (1 + i))).headD []) :=
  roiExport_cleanedMask (fun _ => [[(1, 1)]]) 2 M1 fun S hS => by simp

/-- Claim C10: when contour extraction returns several external
contours for one label (the label splits into several disjoint
components), the exported ROI of that label holds the points of the
first contour only; any point of the second contour not already on the
first is absent from the entry. -/
theorem roi_first_contour_only
    (f : Finset (Fin h × Fin w) → List (List (Nat × Nat))) (m : Mask h w) (k : Nat)
    (hne : ∀ k', 1 ≤ k' → k' ≤ maskMax m → f (labelSet m k') ≠ [])
    (h1 : 1 ≤ k) (h2 : k ≤ maskMax m)
    (c₁ c₂ : List (Nat × Nat)) (rest : List (List (Nat × Nat)))
    (hk : f (labelSet m k) = c₁ :: c₂ :: rest) :
    ∃ entries, roiExport f m = some entries ∧
      entries[k - 1]? = some (toString (k - 1), c₁) ∧
      ∀ pt ∈ c₂, pt ∉ c₁ → ∀ e, entries[k - 1]? = some e → pt ∉ e.2 := by
  have hentry : ((List.range (maskMax m)).map fun i =>
      (toString i, (f (labelSet m (1 + i))).headD []))[k - 1]? =
      some (toString (k - 1), c₁) := by
    rw [List.getElem?_map, List.getElem?_range (by omega), Option.map_some']
    rw [show 1 + (k - 1) = k by omega, hk]
    rfl
  refine ⟨_, roiExport_eq f m hne, hentry, ?_⟩
  intro pt hpt hnot e he
  rw [hentry] at he
  injection he with he'
  rw [← he']
  exact hnot

theorem roi_first_contour_only_witness :
    ∃ entries,
      roiExport (fun _ => [[(1, 1)], [(2, 2)]]) (cleanedMask 2 M1) = some entries ∧
      entries[1 - 1]? = some (toString (1 - 1), [(1, 1)]) ∧
      ∀ pt ∈ [((2 : Nat), (2 : Nat))], pt ∉ [((1 : Nat), (1 : Nat))] →
        ∀ e, entries[1 - 1]? = some e → pt ∉ e.2 := by
  have hmax : maskMax (cleanedMask 2 M1) = 1 := by
    simp only [cleanedMask, cleanedWith]
    rw [show (2 : ℚ) / 2 = 1 from by norm_num]
    decide
  exact roi_first_contour_only (fun _ => [[(1, 1)], [(2, 2)]]) (cleanedMask 2 M1) 1
    (fun k' _ _ => by simp) (le_refl 1) (by omega) [(1, 1)] [(2, 2)] [] rfl

/-- Claim C5: when `float(cell_diameter)` fails, the driver does not
raise: it passes `None` (auto-diameter mode) to model inference, and
the cleaning threshold uses the diameter *returned* by the model
(`r.2`), never the unparsable input. -/
theorem diameter_parse_fallback
    (pyfloat : String → Option ℚ)
    (modelOf : String → Mask h w → Option ℚ → List Nat → Mask h w × ℚ)
    (findContours : Finset (Fin h × Fin w) → List (List (Nat × Nat)))
    (equalize_adapthist : Nat → ℚ → Nat → Image h w → Image h w)
    (img0 : Image h w) (model_name prob_thresh cell_diameter : String)
    (output_zip : Option String)
    (hp : pyfloat cell_diameter = none) :
    runMain pyfloat modelOf findContours equalize_adapthist img0 model_name
        prob_thresh cell_diameter output_zip =
      (let img := claher equalize_adapthist img0
       let r := modelOf model_name img none [0, 0]
       let mask := cleanedMask r.2 r.1
       match output_zip with
       | none => some ⟨mask, none⟩
       | some _ => (roiExport findContours mask).map fun entries =>
           ⟨mask, some entries⟩) := by
  simp only [runMain, hp]

theorem diameter_parse_fallback_witness :
    pyfloatFail "abc" = none ∧
    runMain pyfloatFail modelTiny contoursTiny eqadTiny imgTiny "cyto" "0.5"
        "abc" none =
      some ⟨cleanedMask (modelTiny "cyto" (claher eqadTiny imgTiny) none [0, 0]).2
            (modelTiny "cyto" (claher eqadTiny imgTiny) none [0, 0]).1, none⟩ := by
  refine ⟨rfl, ?_⟩
  exact diameter_parse_fallback pyfloatFail modelTiny contoursTiny eqadTiny imgTiny
    "cyto" "0.5" "abc" none rfl

/-- Claim C8: when the optional ROI path is omitted the driver still
produces the cleaned mask, and the ROI output is `none` — ROI
extraction and export are skipped entirely, no archive is created. -/
theorem no_roi_when_zip_omitted
    (pyfloat : String → Option ℚ)
    (modelOf : String → Mask h w → Option ℚ → List Nat → Mask h w × ℚ)
    (findContours : Finset (Fin h × Fin w) → List (List (Nat × Nat)))
    (equalize_adapthist : Nat → ℚ → Nat → Image h w → Image h w)
    (img0 : Image h w) (model_name prob_thresh cell_diameter : String) :
    runMain pyfloat modelOf findContours equalize_adapthist img0 model_name
        prob_thresh cell_diameter none =
      some ⟨cleanedMask
              (modelOf model_name (claher equalize_adapthist img0)
                (pyfloat cell_diameter) [0, 0]).2
              (modelOf model_name (claher equalize_adapthist img0)
                (pyfloat cell_diameter) [0, 0]).1, none⟩ := rfl

/-- Claim C9: two invocations that differ only in `prob_thresh` produce
identical results — the parameter is accepted and parsed but never used
by the pipeline. -/
theorem prob_thresh_unused
    (pyfloat : String → Option ℚ)
    (modelOf : String → Mask h w → Option ℚ → List Nat → Mask h w × ℚ)
    (findContours : Finset (Fin h × Fin w) → List (List (Nat × Nat)))
    (equalize_adapthist : Nat → ℚ → Nat → Image h w → Image h w)
    (img0 : Image h w) (model_name cell_diameter : String)
    (output_zip : Option String) (pt₁ pt₂ : String) :
    runMain pyfloat modelOf findContours equalize_adapthist img0 model_name
        pt₁ cell_diameter output_zip =
      runMain pyfloat modelOf findContours equalize_adapthist img0 model_name
        pt₂ cell_diameter output_zip := rfl

/-- Claim C6: `claher` applies adaptive histogram equalization at
kernel size 127, clip limit 1/100 and 256 bins (the parameters passed
by the source), then rescales so the maximum maps to 255 with a
truncating cast to `uint8`: whenever the equalized image is
nonnegative with a positive maximum (any non-degenerate input), the
output values all lie in `[0, 255]` and the maximum output is 255. -/
theorem claher_output_range
    (equalize_adapthist : Nat → ℚ → Nat → Image h w → Image h w)
    (img : Image h w)
    (h0 : ∀ i j, 0 ≤ equalize_adapthist 127 (1 / 100) 256 img i j)
    (hpos : ∃ i j, 0 < equalize_adapthist 127 (1 / 100) 256 img i j) :
    (∀ i j, claher equalize_adapthist img i j ≤ 255) ∧
      ∃ i j, claher equalize_adapthist img i j = 255 := by
  set e := equalize_adapthist 127 (1 / 100) 256 img with he
  have hM : 0 < imgMax e := by
    obtain ⟨i, j, hij⟩ := hpos
    exact lt_of_lt_of_le hij (le_imgMax e i j)
  constructor
  · intro i j
    show (Int.toNat ⌊255 * (e i j / imgMax e)⌋) % 256 ≤ 255
    have hmod := Nat.mod_lt (Int.toNat ⌊255 * (e i j / imgMax e)⌋)
      (show 0 < 256 by norm_num)
    omega
  · obtain ⟨i, j, hmax⟩ := imgMax_attained e hM
    refine ⟨i, j, ?_⟩
    show (Int.toNat ⌊255 * (e i j / imgMax e)⌋) % 256 = 255
    rw [hmax, div_self (ne_of_gt hM)]
    norm_num
    decide

theorem claher_output_range_witness :
    (∀ i j, 0 ≤ eqadOne 127 (1 / 100) 256 imgTiny i j) ∧
    (∃ i j, 0 < eqadOne 127 (1 / 100) 256 imgTiny i j) ∧
    (∀ i j, claher eqadOne imgTiny i j ≤ 255) ∧
      ∃ i j, claher eqadOne imgTiny i j = 255 := by
  have h0 : ∀ i j, 0 ≤ eqadOne 127 (1 / 100) 256 imgTiny i j := by
    intro i j
    norm_num [eqadOne]
  have hpos : ∃ i j, 0 < eqadOne 127 (1 / 100) 256 imgTiny i j :=
    ⟨0, 0, by norm_num [eqadOne]⟩
  exact ⟨h0, hpos, claher_output_range eqadOne imgTiny h0 hpos⟩

end Segmenter
